import Mathlib

/-!
Verification of the NDJSON deserialization core of `polars-json`
(`crates/polars-json/src/ndjson/deserialize.rs`) and of the array
expression namespace of `polars-plan` (`crates/polars-plan/src/dsl/array.rs`).

The embedding follows the Rust source.  Text is modelled as `List Char`
(one element per code unit; the source measures `String::len`, we measure
list length).  The external collaborators of the core -- the text-to-value
parser (`simd_json::to_borrowed_value`), the value-to-array decoder
(`crate::json::deserialize::_deserialize`) and arrow's `concatenate` --
are not part of the excerpt; the parser is therefore a parameter `P` of
every definition, the decoder and `concatenate` are modelled from the
spec, as documented on each definition.
-/

/-- Row text, one JSON document (source: the `&str` items of the iterator). -/
abbrev Row := List Char

/-- Logical Arrow data type.  The core never inspects the type; only its
identity is propagated, so a small set of representative variants suffices. -/
inductive ArrowDataType where
  | int64
  | float64
  | boolean
  | utf8
deriving DecidableEq, Repr

/-- Result of the external text-to-value parser, as seen by this core:
the source only distinguishes a top-level `BorrowedValue::Array` (whose
element values, of abstract type `V`, are handed on to the decoder) from
every other shape of value. -/
inductive BorrowedValue (V : Type) where
  | array (rows : List V)
  | other (v : V)
deriving DecidableEq, Repr

/-- Error type: the source produces `PolarsError::ComputeError` with a
textual message. -/
inductive PolarsError where
  | ComputeError (msg : String)
deriving DecidableEq, Repr

/-- Typed columnar array (the `Box<dyn Array>` of the source): its logical
type together with its entries, of abstract entry type `E`. -/
structure Arr (E : Type) where
  dtype : ArrowDataType
  values : List E
deriving DecidableEq, Repr

/-- Outcome of a computation in the core: an `Ok` value, a recoverable
`PolarsError`, or `fatal`, which models a Rust panic (the source's
`unreachable!()` branch).  A panic is distinct from a returned error. -/
inductive POutcome (α : Type) where
  | ok (a : α)
  | err (e : PolarsError)
  | fatal
deriving DecidableEq, Repr

deriving instance DecidableEq for Except

/-- Value of `std::u32::MAX`. -/
def u32MAX : Nat := 2 ^ 32 - 1

/-- Flush byte budget of the source: the expression
`(std::u32::MAX << 1) as usize`, a wrapping shift on 32 bits. -/
def FLUSH_LIMIT : Nat := (u32MAX * 2) % 2 ^ 32

/-- Message wrapper applied to a parser diagnostic `e` by the source:
`format!("json parsing error: '{e}'")`. -/
def errWrap (e : String) : String :=
  "json parsing error: " ++ (Char.ofNat 39).toString ++ e ++ (Char.ofNat 39).toString

section Core

variable {V E : Type}

/-- Modelled from the spec: the external value-to-array decoder
`crate::json::deserialize::_deserialize` ("takes a sequence of generic
JSON values plus a target data-type descriptor and recursively produces a
typed columnar array"; "total over any value sequence"; "its internal
recursion is assumed correct and is not part of this core").  The
per-value conversion is abstracted as a parameter `g`; the decoder
converts each value independently, so the resulting array has the target
type and one entry per input value. -/
def _deserialize (g : ArrowDataType → V → E) (vals : List V)
    (data_type : ArrowDataType) : Arr E :=
  ⟨data_type, vals.map (g data_type)⟩

/-- Modelled from the spec: arrow's `concatenate` collaborator
("`concatenate_arrays(ordered sequence of same-typed arrays) -> single
array | type-mismatch error`"; arrow also rejects an empty input slice).
The entries of the inputs are joined in order. -/
def concatenate (arrs : List (Arr E)) : Except PolarsError (Arr E) :=
  match arrs with
  | [] => .error (.ComputeError "concat requires input of at least one array")
  | a :: _ =>
    if arrs.all (fun x => x.dtype = a.dtype) then
      .ok ⟨a.dtype, (arrs.map Arr.values).flatten⟩
    else
      .error (.ComputeError "It is not possible to concatenate arrays of different data types.")

variable (g : ArrowDataType → V → E)
variable (P : List Char → Except String (BorrowedValue V))
variable (dt : ArrowDataType) (B : Nat)

/-- Source `_deserializer`: run the parser on the buffer; a parse failure
becomes a `ComputeError` wrapping the diagnostic; a top-level array is
decoded by `_deserialize`; any other top-level shape hits the source's
`unreachable!()`, modelled as the `fatal` outcome. -/
def _deserializer (s : List Char) (data_type : ArrowDataType) : POutcome (Arr E) :=
  match P s with
  | .error e => .err (.ComputeError (errWrap e))
  | .ok v =>
    match v with
    | .array rows => .ok (_deserialize g rows data_type)
    | .other _ => .fatal

/-- State of the row loop of `deserialize_iter`: the accumulated chunk
arrays `arr` and the working buffer `buf`. -/
structure IterState (E : Type) where
  arr : List (Arr E)
  buf : List Char
deriving DecidableEq, Repr

/-- One iteration of the row loop of `deserialize_iter`: push the row and
a separator comma; if `buf.len() + row.len()` exceeds the budget, pop the
comma, close with a bracket, decode the chunk, push it onto `arr` and
reset the buffer to an opening bracket. -/
def rowStep (st : IterState E) (row : Row) : POutcome (IterState E) :=
  let buf1 := st.buf ++ row ++ [',']
  if buf1.length + row.length > B then
    match _deserializer g P (buf1.dropLast ++ [']']) dt with
    | .ok a => .ok ⟨st.arr ++ [a], ['[']⟩
    | .err e => .err e
    | .fatal => .fatal
  else
    .ok ⟨st.arr, buf1⟩

/-- The row loop of `deserialize_iter`, with the error propagation of the
`?` operator. -/
def runRows : List Row → IterState E → POutcome (IterState E)
  | [], st => .ok st
  | row :: rest, st =>
    match rowStep g P dt B st row with
    | .ok st2 => runRows rest st2
    | .err e => .err e
    | .fatal => .fatal

/-- Trace of the loop states at the start of each row iteration (the
state just before a row is appended), following the same control flow as
`runRows`, including the early exit on a failed chunk decode. -/
def statesOf : List Row → IterState E → List (IterState E)
  | [], _ => []
  | row :: rest, st =>
    st :: (match rowStep g P dt B st row with
           | .ok st2 => statesOf rest st2
           | .err _ => []
           | .fatal => [])

/-- Source `deserialize_iter`, with the flush byte budget generalized to a
parameter `B` (the source fixes `B := FLUSH_LIMIT`; the spec quantifies
over the budget).  After the row loop: strip the trailing comma when the
buffer has content beyond the opening bracket, close with a bracket, then
either return the residual chunk's decode directly (no flush happened) or
append it and concatenate all chunks. -/
def deserialize_iter_budget (rows : List Row) : POutcome (Arr E) :=
  match runRows g P dt B rows ⟨[], ['[']⟩ with
  | .err e => .err e
  | .fatal => .fatal
  | .ok st =>
    let buf2 := if 1 < st.buf.length then st.buf.dropLast else st.buf
    let fin := buf2 ++ [']']
    if st.arr.isEmpty then
      _deserializer g P fin dt
    else
      match _deserializer g P fin dt with
      | .ok a =>
        match concatenate (st.arr ++ [a]) with
        | .ok r => .ok r
        | .error e => .err e
      | .err e => .err e
      | .fatal => .fatal

/-- Source `deserialize_iter` proper: the budget is the source's fixed
`FLUSH_LIMIT`. -/
def deserialize_iter (rows : List Row) : POutcome (Arr E) :=
  deserialize_iter_budget g P dt FLUSH_LIMIT rows

end Core

/-! Specification-level description of the batching: the rows are split
into flushed groups and one residual group, mirroring the flush decisions
of the loop.  These definitions are the yardstick the loop is proved
against. -/

/-- Buffer content corresponding to a group of rows still being filled:
an opening bracket followed by each row and its separator comma. -/
def bufOf (c : List Row) : List Char :=
  '[' :: (c.map (fun r => r ++ [','])).flatten

/-- Length of the working buffer holding the group `c`. -/
def groupLen (c : List Row) : Nat := (bufOf c).length

/-- Finalized (closed) buffer for a group of rows: strip the trailing
comma when there is content beyond the opening bracket, then close with a
bracket.  For the empty group this is the literal `[]`. -/
def finalize (c : List Row) : List Char :=
  (if 1 < (bufOf c).length then (bufOf c).dropLast else bufOf c) ++ [']']

/-- Splitting of the row sequence into flushed groups and the residual
group, following the flush predicate of the loop: after appending `row`
to the current group, flush when the buffer length plus the row length
exceeds the budget. -/
def chunkGo (B : Nat) : List Row → List Row → List (List Row) × List Row
  | [], cur => ([], cur)
  | row :: rest, cur =>
    let cur1 := cur ++ [row]
    if groupLen cur1 + row.length > B then
      let p := chunkGo B rest []
      (cur1 :: p.1, p.2)
    else
      chunkGo B rest cur1

/-- All groups of rows handed to the chunk decoder for budget `B`: the
flushed groups followed by the residual group. -/
def allChunks (B : Nat) (rows : List Row) : List (List Row) :=
  (chunkGo B rows []).1 ++ [(chunkGo B rows []).2]

/-- All buffers handed to the chunk decoder for budget `B`. -/
def handedBufs (B : Nat) (rows : List Row) : List (List Char) :=
  (allChunks B rows).map finalize

/-- Length of the last row of a group (0 for the empty group). -/
def lastLen (c : List Row) : Nat :=
  match c.getLast? with
  | some r => r.length
  | none => 0

/-- The flush predicate of the source, expressed on a group: the group is
nonempty and the buffer length plus the last row's length exceeds the
budget. -/
def triggers (B : Nat) (c : List Row) : Prop :=
  c ≠ [] ∧ B < groupLen c + lastLen c

instance (B : Nat) (c : List Row) : Decidable (triggers B c) := by
  unfold triggers; infer_instance

/-- Test that an `Except` result of the parser is not a successfully
parsed non-array value (such a value would hit the `unreachable!()`). -/
def okArrayish {V : Type} : Except String (BorrowedValue V) → Bool
  | .ok (.other _) => false
  | _ => true

/-! Embedding of `crates/polars-plan/src/dsl/array.rs`. -/

/-- Array expression functions of the DSL (the `ArrayFunction` variants
used by `ArrayNameSpace`; the `ddof` parameters are `u8` in the source and
are only passed through, modelled as `Nat`). -/
inductive ArrayFunction where
  | Max
  | Min
  | Sum
  | Std (ddof : Nat)
  | Var (ddof : Nat)
  | Median
  | Unique (stable : Bool)
  | ToList
  | All
  | Any
deriving DecidableEq, Repr

/-- Function expressions of the DSL: this excerpt only builds the
`ArrayExpr` variant. -/
inductive FunctionExpr where
  | ArrayExpr (af : ArrayFunction)
deriving DecidableEq, Repr

/-- DSL expressions: an opaque input expression, or a function node with
its input expressions (the shape produced by `map_private`). -/
inductive Expr where
  | leaf (id : Nat)
  | function (input : List Expr) (funct : FunctionExpr)

/-- Modelled from the spec: `Expr::map_private` is defined outside the
excerpt, in the expression-DSL layer the spec describes as "pure glue, no
algorithmic content"; it wraps the receiver as the sole input of a
function node carrying the given `FunctionExpr`. -/
def Expr.map_private (e : Expr) (funct : FunctionExpr) : Expr :=
  .function [e] funct

/-- Source `pub struct ArrayNameSpace(pub Expr)`; the single positional
field is named `expr` here. -/
structure ArrayNameSpace where
  expr : Expr

/-- Compute the maximum of the items in every subarray. -/
def ArrayNameSpace.max (self : ArrayNameSpace) : Expr :=
  self.expr.map_private (.ArrayExpr .Max)

/-- Compute the minimum of the items in every subarray. -/
def ArrayNameSpace.min (self : ArrayNameSpace) : Expr :=
  self.expr.map_private (.ArrayExpr .Min)

/-- Compute the sum of the items in every subarray. -/
def ArrayNameSpace.sum (self : ArrayNameSpace) : Expr :=
  self.expr.map_private (.ArrayExpr .Sum)

/-- Compute the std of the items in every subarray. -/
def ArrayNameSpace.std (self : ArrayNameSpace) (ddof : Nat) : Expr :=
  self.expr.map_private (.ArrayExpr (.Std ddof))

/-- Compute the var of the items in every subarray. -/
def ArrayNameSpace.var (self : ArrayNameSpace) (ddof : Nat) : Expr :=
  self.expr.map_private (.ArrayExpr (.Var ddof))

/-- Compute the median of the items in every subarray. -/
def ArrayNameSpace.median (self : ArrayNameSpace) : Expr :=
  self.expr.map_private (.ArrayExpr .Median)

/-- Keep only the unique values in every sub-array. -/
def ArrayNameSpace.unique (self : ArrayNameSpace) : Expr :=
  self.expr.map_private (.ArrayExpr (.Unique false))

/-- Keep only the unique values in every sub-array, stable variant. -/
def ArrayNameSpace.unique_stable (self : ArrayNameSpace) : Expr :=
  self.expr.map_private (.ArrayExpr (.Unique true))

/-- Cast the Array column to List column with the same inner data type. -/
def ArrayNameSpace.to_list (self : ArrayNameSpace) : Expr :=
  self.expr.map_private (.ArrayExpr .ToList)

/-- Evaluate whether all boolean values are true for every subarray. -/
def ArrayNameSpace.all (self : ArrayNameSpace) : Expr :=
  self.expr.map_private (.ArrayExpr .All)

/-- Evaluate whether any boolean value is true for every subarray. -/
def ArrayNameSpace.any (self : ArrayNameSpace) : Expr :=
  self.expr.map_private (.ArrayExpr .Any)

/-! Concrete instances used by the witnesses of the claims below. -/

/-- Concrete identity entry conversion used by witnesses. -/
def gw : ArrowDataType → Nat → Nat := fun _ v => v

/-- Concrete row-value assignment used by witnesses. -/
def fw : Row → Nat := fun r => if r = ['1'] then 1 else 2

/-- Concrete parser used by witnesses: recognizes the handful of framed
buffers arising there and rejects everything else with a diagnostic. -/
def Pw (s : List Char) : Except String (BorrowedValue Nat) :=
  if s = ['[', ']'] then .ok (.array [])
  else if s = ['[', '1', ']'] then .ok (.array [1])
  else if s = ['[', '2', ']'] then .ok (.array [2])
  else if s = ['[', '1', ',', '2', ']'] then .ok (.array [1, 2])
  else .error "InternalError: expected value"

/-- Concrete parser that always returns a non-array value, exercising the
fatal branch in a witness. -/
def Pother : List Char → Except String (BorrowedValue Nat) :=
  fun _ => .ok (.other 0)

/-! Basic facts about the buffer framing. -/

lemma bufOf_nil : bufOf [] = ['['] := rfl

lemma bufOf_concat (c : List Row) (r : Row) :
    bufOf (c ++ [r]) = bufOf c ++ (r ++ [',']) := by
  simp [bufOf]

lemma groupLen_concat (c : List Row) (r : Row) :
    groupLen (c ++ [r]) = groupLen c + (r.length + 1) := by
  simp [groupLen, bufOf_concat]

lemma one_le_groupLen (c : List Row) : 1 ≤ groupLen c := by
  simp [groupLen, bufOf]

lemma one_lt_groupLen_concat (c : List Row) (r : Row) :
    1 < groupLen (c ++ [r]) := by
  have h := one_le_groupLen c
  rw [groupLen_concat]
  omega

lemma finalize_nil : finalize [] = ['[', ']'] := rfl

lemma finalize_concat (c : List Row) (r : Row) :
    finalize (c ++ [r]) = bufOf c ++ r ++ [']'] := by
  rw [finalize, if_pos]
  · rw [bufOf_concat, ← List.append_assoc, List.dropLast_concat]
  · exact one_lt_groupLen_concat c r

lemma chunkGo_flatten (B : Nat) :
    ∀ (rows cur : List Row),
      ((chunkGo B rows cur).1).flatten ++ (chunkGo B rows cur).2 = cur ++ rows
  | [], cur => by simp [chunkGo]
  | row :: rest, cur => by
    rw [chunkGo]
    by_cases hc : groupLen (cur ++ [row]) + row.length > B
    · simp only [hc, if_pos]
      have ih := chunkGo_flatten B rest []
      simp only [List.flatten_cons, List.append_assoc, ih]
      simp
    · simp only [hc, if_neg, not_false_iff]
      have ih := chunkGo_flatten B rest (cur ++ [row])
      simpa using ih

/-! Behaviour of one loop iteration. -/

lemma rowStep_noflush {V E : Type} (g : ArrowDataType → V → E)
    (P : List Char → Except String (BorrowedValue V)) (dt : ArrowDataType)
    (B : Nat) (st : IterState E) (row : Row)
    (hc : ¬ (st.buf ++ row ++ [',']).length + row.length > B) :
    rowStep g P dt B st row = .ok ⟨st.arr, st.buf ++ row ++ [',']⟩ := by
  rw [rowStep]
  simp only [if_neg hc]

lemma rowStep_flush {V E : Type} (g : ArrowDataType → V → E)
    (P : List Char → Except String (BorrowedValue V)) (dt : ArrowDataType)
    (B : Nat) (st : IterState E) (row : Row)
    (hc : (st.buf ++ row ++ [',']).length + row.length > B) :
    rowStep g P dt B st row =
      match _deserializer g P (st.buf ++ row ++ [']']) dt with
      | .ok a => .ok ⟨st.arr ++ [a], ['[']⟩
      | .err e => .err e
      | .fatal => .fatal := by
  rw [rowStep]
  simp only [if_pos hc, List.dropLast_concat]

lemma bufOf_step_length (cur : List Row) (row : Row) :
    (bufOf cur ++ row ++ [',']).length = groupLen (cur ++ [row]) := by
  rw [groupLen_concat]
  simp only [groupLen, List.length_append, List.length_cons, List.length_nil]
  omega

lemma bufOf_step_flushbuf (cur : List Row) (row : Row) :
    bufOf cur ++ row ++ [']'] = finalize (cur ++ [row]) := by
  rw [finalize_concat]

/-! Correspondence between the loop and the chunk decomposition, in the
case where every flushed chunk parses to an array of its rows' values. -/

lemma runRows_chunks {V E : Type} (g : ArrowDataType → V → E)
    (P : List Char → Except String (BorrowedValue V)) (dt : ArrowDataType)
    (B : Nat) (f : Row → V) (rows : List Row) :
    ∀ (cur : List Row) (acc : List (Arr E)),
      (∀ c ∈ (chunkGo B rows cur).1, P (finalize c) = .ok (.array (c.map f))) →
      runRows g P dt B rows ⟨acc, bufOf cur⟩ =
        .ok ⟨acc ++ ((chunkGo B rows cur).1.map
            (fun c => Arr.mk dt ((c.map f).map (g dt)))),
          bufOf ((chunkGo B rows cur).2)⟩ := by
  induction rows with
  | nil =>
    intro cur acc _H
    simp [runRows, chunkGo]
  | cons row rest ih =>
    intro cur acc H
    by_cases hc : groupLen (cur ++ [row]) + row.length > B
    · have hmem : (cur ++ [row]) ∈ (chunkGo B (row :: rest) cur).1 := by
        rw [chunkGo]
        simp only [if_pos hc]
        exact List.mem_cons_self _ _
      have hP := H _ hmem
      have hstep := rowStep_flush g P dt B ⟨acc, bufOf cur⟩ row
        (by rw [bufOf_step_length]; exact hc)
      rw [runRows, hstep]
      simp only [bufOf_step_flushbuf]
      rw [_deserializer, hP]
      simp only [_deserialize]
      have H2 : ∀ c ∈ (chunkGo B rest []).1, P (finalize c) = .ok (.array (c.map f)) := by
        intro c hcmem
        apply H
        rw [chunkGo]
        simp only [if_pos hc]
        exact List.mem_cons_of_mem _ hcmem
      rw [← bufOf_nil]
      rw [ih [] (acc ++ [Arr.mk dt (((cur ++ [row]).map f).map (g dt))]) H2]
      rw [chunkGo]
      simp only [if_pos hc]
      simp [_deserialize, List.append_assoc]
    · have hstep := rowStep_noflush g P dt B ⟨acc, bufOf cur⟩ row
        (by rw [bufOf_step_length]; exact hc)
      rw [runRows, hstep]
      simp only []
      have hbuf : bufOf cur ++ row ++ [','] = bufOf (cur ++ [row]) := by
        rw [bufOf_concat, List.append_assoc]
      rw [hbuf]
      have H2 : ∀ c ∈ (chunkGo B rest (cur ++ [row])).1,
          P (finalize c) = .ok (.array (c.map f)) := by
        intro c hcmem
        apply H
        rw [chunkGo]
        simp only [if_neg hc]
        exact hcmem
      rw [ih (cur ++ [row]) acc H2]
      rw [chunkGo]
      simp only [if_neg hc]

lemma runRows_chunks_exists {V E : Type} (g : ArrowDataType → V → E)
    (P : List Char → Except String (BorrowedValue V)) (dt : ArrowDataType)
    (B : Nat) (rows : List Row) :
    ∀ (cur : List Row) (acc : List (Arr E)),
      (∀ c ∈ (chunkGo B rows cur).1, ∃ vs, P (finalize c) = .ok (.array vs)) →
      ∃ VS : List (List V),
        VS.length = (chunkGo B rows cur).1.length ∧
        runRows g P dt B rows ⟨acc, bufOf cur⟩ =
          .ok ⟨acc ++ VS.map (fun vs => Arr.mk dt (vs.map (g dt))),
            bufOf ((chunkGo B rows cur).2)⟩ := by
  induction rows with
  | nil =>
    intro cur acc _H
    exact ⟨[], by simp [chunkGo], by simp [runRows, chunkGo]⟩
  | cons row rest ih =>
    intro cur acc H
    by_cases hc : groupLen (cur ++ [row]) + row.length > B
    · have hmem : (cur ++ [row]) ∈ (chunkGo B (row :: rest) cur).1 := by
        rw [chunkGo]
        simp only [if_pos hc]
        exact List.mem_cons_self _ _
      obtain ⟨vs, hP⟩ := H _ hmem
      have hstep := rowStep_flush g P dt B ⟨acc, bufOf cur⟩ row
        (by rw [bufOf_step_length]; exact hc)
      have H2 : ∀ c ∈ (chunkGo B rest []).1, ∃ vs2, P (finalize c) = .ok (.array vs2) := by
        intro c hcmem
        apply H
        rw [chunkGo]
        simp only [if_pos hc]
        exact List.mem_cons_of_mem _ hcmem
      obtain ⟨VS, hlen, hrun⟩ := ih [] (acc ++ [Arr.mk dt (vs.map (g dt))]) H2
      refine ⟨vs :: VS, ?_, ?_⟩
      · rw [chunkGo]
        simp only [if_pos hc]
        simp [hlen]
      · rw [runRows, hstep]
        simp only [bufOf_step_flushbuf]
        rw [_deserializer, hP]
        simp only [_deserialize]
        rw [← bufOf_nil, hrun]
        rw [chunkGo]
        simp only [if_pos hc]
        simp [List.append_assoc]
    · have hstep := rowStep_noflush g P dt B ⟨acc, bufOf cur⟩ row
        (by rw [bufOf_step_length]; exact hc)
      have H2 : ∀ c ∈ (chunkGo B rest (cur ++ [row])).1,
          ∃ vs2, P (finalize c) = .ok (.array vs2) := by
        intro c hcmem
        apply H
        rw [chunkGo]
        simp only [if_neg hc]
        exact hcmem
      obtain ⟨VS, hlen, hrun⟩ := ih (cur ++ [row]) acc H2
      refine ⟨VS, ?_, ?_⟩
      · rw [chunkGo]
        simp only [if_neg hc]
        exact hlen
      · rw [runRows, hstep]
        simp only []
        have hbuf : bufOf cur ++ row ++ [','] = bufOf (cur ++ [row]) := by
          rw [bufOf_concat, List.append_assoc]
        rw [hbuf, hrun]
        rw [chunkGo]
        simp only [if_neg hc]

lemma runRows_noflush {V E : Type} (g : ArrowDataType → V → E)
    (P : List Char → Except String (BorrowedValue V)) (dt : ArrowDataType)
    (B : Nat) (rows : List Row) :
    ∀ (cur : List Row) (acc : List (Arr E)),
      (chunkGo B rows cur).1 = [] →
      runRows g P dt B rows ⟨acc, bufOf cur⟩ =
        .ok ⟨acc, bufOf ((chunkGo B rows cur).2)⟩ := by
  induction rows with
  | nil =>
    intro cur acc _h
    simp [runRows, chunkGo]
  | cons row rest ih =>
    intro cur acc h
    by_cases hc : groupLen (cur ++ [row]) + row.length > B
    · exfalso
      rw [chunkGo] at h
      simp only [if_pos hc] at h
      exact List.cons_ne_nil _ _ h
    · have hstep := rowStep_noflush g P dt B ⟨acc, bufOf cur⟩ row
        (by rw [bufOf_step_length]; exact hc)
      rw [runRows, hstep]
      simp only []
      have hbuf : bufOf cur ++ row ++ [','] = bufOf (cur ++ [row]) := by
        rw [bufOf_concat, List.append_assoc]
      rw [hbuf]
      have h2 : (chunkGo B rest (cur ++ [row])).1 = [] := by
        rw [chunkGo] at h
        simp only [if_neg hc] at h
        exact h
      rw [ih (cur ++ [row]) acc h2]
      rw [chunkGo]
      simp only [if_neg hc]

lemma runRows_err {V E : Type} (g : ArrowDataType → V → E)
    (P : List Char → Except String (BorrowedValue V)) (dt : ArrowDataType)
    (B : Nat) (rows : List Row) :
    ∀ (cur : List Row) (acc : List (Arr E)) (good : List (List Row))
      (bad : List Row) (rest2 : List (List Row)) (e : String),
      (chunkGo B rows cur).1 = good ++ bad :: rest2 →
      (∀ c ∈ good, ∃ vs, P (finalize c) = .ok (.array vs)) →
      P (finalize bad) = .error e →
      runRows g P dt B rows ⟨acc, bufOf cur⟩ = .err (.ComputeError (errWrap e)) := by
  induction rows with
  | nil =>
    intro cur acc good bad rest2 e hsplit _ _
    simp only [chunkGo] at hsplit
    exact absurd hsplit.symm (List.append_ne_nil_of_right_ne_nil _ (List.cons_ne_nil _ _))
  | cons row rest ih =>
    intro cur acc good bad rest2 e hsplit hgood hbad
    by_cases hc : groupLen (cur ++ [row]) + row.length > B
    · rw [chunkGo] at hsplit
      simp only [if_pos hc] at hsplit
      have hstep := rowStep_flush g P dt B ⟨acc, bufOf cur⟩ row
        (by rw [bufOf_step_length]; exact hc)
      cases good with
      | nil =>
        simp only [List.nil_append, List.cons.injEq] at hsplit
        rw [runRows, hstep]
        simp only [bufOf_step_flushbuf]
        rw [hsplit.1, _deserializer, hbad]
      | cons gd good2 =>
        simp only [List.cons_append, List.cons.injEq] at hsplit
        obtain ⟨vs, hP⟩ := hgood gd (List.mem_cons_self _ _)
        rw [runRows, hstep]
        simp only [bufOf_step_flushbuf]
        rw [← hsplit.1] at hP
        rw [_deserializer, hP]
        simp only [_deserialize]
        rw [← bufOf_nil]
        exact ih [] (acc ++ [Arr.mk dt (vs.map (g dt))]) good2 bad rest2 e
          hsplit.2 (fun c hcmem => hgood c (List.mem_cons_of_mem _ hcmem)) hbad
    · have hstep := rowStep_noflush g P dt B ⟨acc, bufOf cur⟩ row
        (by rw [bufOf_step_length]; exact hc)
      rw [runRows, hstep]
      simp only []
      have hbuf : bufOf cur ++ row ++ [','] = bufOf (cur ++ [row]) := by
        rw [bufOf_concat, List.append_assoc]
      rw [hbuf]
      rw [chunkGo] at hsplit
      simp only [if_neg hc] at hsplit
      exact ih (cur ++ [row]) acc good bad rest2 e hsplit hgood hbad

/-! Assembly: behaviour of the full function in terms of the chunk
decomposition. -/

lemma concatenate_uniform {E : Type} (dt : ArrowDataType) (ls : List (List E))
    (h : ls ≠ []) :
    concatenate (ls.map (fun vs => Arr.mk dt vs)) = .ok ⟨dt, ls.flatten⟩ := by
  cases ls with
  | nil => exact absurd rfl h
  | cons l0 ls2 =>
    rw [List.map_cons, concatenate]
    rw [if_pos]
    · have hv : Arr.values ∘ (fun vs : List E => Arr.mk dt vs) = fun vs => vs := rfl
      simp [List.map_map, hv]
    · simp [List.all_eq_true]

lemma allChunks_flatten (B : Nat) (rows : List Row) :
    (allChunks B rows).flatten = rows := by
  rw [allChunks]
  rw [List.flatten_append, List.flatten_cons, List.flatten_nil, List.append_nil]
  exact chunkGo_flatten B rows []

lemma finalize_fold (c : List Row) :
    (if 1 < (bufOf c).length then (bufOf c).dropLast else bufOf c) ++ [']'] =
      finalize c := rfl

lemma mem_allChunks_left {B : Nat} {rows : List Row} {c : List Row}
    (h : c ∈ (chunkGo B rows []).1) : c ∈ allChunks B rows := by
  rw [allChunks]; exact List.mem_append_left _ h

lemma mem_allChunks_res (B : Nat) (rows : List Row) :
    (chunkGo B rows []).2 ∈ allChunks B rows := by
  rw [allChunks]
  exact List.mem_append_right _ (List.mem_singleton.mpr rfl)

lemma deserialize_concat_form {V E : Type} (g : ArrowDataType → V → E)
    (P : List Char → Except String (BorrowedValue V)) (dt : ArrowDataType)
    (B : Nat) (f : Row → V) (rows : List Row)
    (H : ∀ c ∈ allChunks B rows, P (finalize c) = .ok (.array (c.map f)))
    (hne : (chunkGo B rows []).1 ≠ []) :
    deserialize_iter_budget g P dt B rows =
      .ok ⟨dt, ((allChunks B rows).map (fun c => (c.map f).map (g dt))).flatten⟩ := by
  have Hg : ∀ c ∈ (chunkGo B rows []).1, P (finalize c) = .ok (.array (c.map f)) :=
    fun c hm => H c (mem_allChunks_left hm)
  have Hres : P (finalize ((chunkGo B rows []).2)) =
      .ok (.array (((chunkGo B rows []).2).map f)) :=
    H _ (mem_allChunks_res B rows)
  have hrun := runRows_chunks g P dt B f rows [] [] Hg
  rw [deserialize_iter_budget, ← bufOf_nil, hrun]
  simp only [List.nil_append, finalize_fold]
  have hemp : ((chunkGo B rows []).1.map
      (fun c => Arr.mk dt ((c.map f).map (g dt)))).isEmpty = false := by
    rw [List.isEmpty_eq_false_iff_exists_mem]
    obtain ⟨c, hc⟩ := List.exists_mem_of_ne_nil _ hne
    exact ⟨_, List.mem_map_of_mem _ hc⟩
  rw [hemp]
  simp only [Bool.false_eq_true, if_false]
  rw [_deserializer, Hres]
  simp only [_deserialize]
  have hmaps : (chunkGo B rows []).1.map (fun c => Arr.mk dt ((c.map f).map (g dt)))
        ++ [Arr.mk dt ((((chunkGo B rows []).2).map f).map (g dt))] =
      ((allChunks B rows).map (fun c => (c.map f).map (g dt))).map
        (fun vs => Arr.mk dt vs) := by
    simp [allChunks, List.map_map, Function.comp]
  rw [hmaps]
  rw [concatenate_uniform dt _ (by simp [allChunks])]

lemma chunkGo_res_of_noflush {B : Nat} {rows : List Row}
    (hne : (chunkGo B rows []).1 = []) : (chunkGo B rows []).2 = rows := by
  have h := chunkGo_flatten B rows []
  rw [hne] at h
  simpa using h

lemma deserialize_norm {V E : Type} (g : ArrowDataType → V → E)
    (P : List Char → Except String (BorrowedValue V)) (dt : ArrowDataType)
    (B : Nat) (f : Row → V) (rows : List Row)
    (H : ∀ c ∈ allChunks B rows, P (finalize c) = .ok (.array (c.map f))) :
    deserialize_iter_budget g P dt B rows = .ok ⟨dt, (rows.map f).map (g dt)⟩ := by
  by_cases hne : (chunkGo B rows []).1 = []
  · have hres := chunkGo_res_of_noflush hne
    have Hres : P (finalize ((chunkGo B rows []).2)) =
        .ok (.array (((chunkGo B rows []).2).map f)) :=
      H _ (mem_allChunks_res B rows)
    have hrun := runRows_noflush g P dt B rows [] [] hne
    rw [deserialize_iter_budget, ← bufOf_nil, hrun]
    simp only [List.isEmpty_nil, if_pos, finalize_fold]
    rw [_deserializer, Hres]
    simp only [_deserialize]
    rw [hres]
  · rw [deserialize_concat_form g P dt B f rows H hne]
    have hflat : ∀ L : List (List Row),
        (L.map (fun c => (c.map f).map (g dt))).flatten =
          (L.flatten.map f).map (g dt) := by
      intro L
      induction L with
      | nil => simp
      | cons c L2 ih => simp [ih]
    rw [hflat, allChunks_flatten]

lemma deserialize_ok_exists {V E : Type} (g : ArrowDataType → V → E)
    (P : List Char → Except String (BorrowedValue V)) (dt : ArrowDataType)
    (B : Nat) (rows : List Row)
    (H : ∀ c ∈ allChunks B rows, ∃ vs, P (finalize c) = .ok (.array vs)) :
    ∃ a, deserialize_iter_budget g P dt B rows = .ok a := by
  have Hg : ∀ c ∈ (chunkGo B rows []).1, ∃ vs, P (finalize c) = .ok (.array vs) :=
    fun c hm => H c (mem_allChunks_left hm)
  obtain ⟨vsr, Hres⟩ := H _ (mem_allChunks_res B rows)
  obtain ⟨VS, hlen, hrun⟩ := runRows_chunks_exists g P dt B rows [] [] Hg
  rw [deserialize_iter_budget, ← bufOf_nil, hrun]
  simp only [List.nil_append, finalize_fold]
  by_cases hne : (chunkGo B rows []).1 = []
  · have hVS : VS = [] := by
      rw [hne] at hlen
      exact List.eq_nil_of_length_eq_zero hlen
    subst hVS
    simp only [List.map_nil, List.isEmpty_nil, if_pos]
    rw [_deserializer, Hres]
    exact ⟨_, rfl⟩
  · have hVS : VS ≠ [] := by
      intro hv
      rw [hv] at hlen
      exact hne (List.eq_nil_of_length_eq_zero hlen.symm)
    have hemp : (VS.map (fun vs => Arr.mk dt (vs.map (g dt)))).isEmpty = false := by
      rw [List.isEmpty_eq_false_iff_exists_mem]
      obtain ⟨vs, hvs⟩ := List.exists_mem_of_ne_nil _ hVS
      exact ⟨_, List.mem_map_of_mem _ hvs⟩
    rw [hemp]
    simp only [Bool.false_eq_true, if_false]
    rw [_deserializer, Hres]
    simp only [_deserialize]
    have hmaps : VS.map (fun vs => Arr.mk dt (vs.map (g dt))) ++ [Arr.mk dt (vsr.map (g dt))] =
        (VS.map (fun vs => vs.map (g dt)) ++ [vsr.map (g dt)]).map
          (fun vs => Arr.mk dt vs) := by
      simp [List.map_map, Function.comp]
    rw [hmaps]
    rw [concatenate_uniform dt _ (by simp)]
    exact ⟨_, rfl⟩

lemma exists_first_split {α : Type} (p : α → Prop) :
    ∀ l : List α, (∃ x ∈ l, p x) →
      ∃ l1 x l2, l = l1 ++ x :: l2 ∧ p x ∧ ∀ y ∈ l1, ¬ p y := by
  intro l
  induction l with
  | nil =>
    rintro ⟨x, hx, _⟩
    cases hx
  | cons a l2 ih =>
    intro hex
    by_cases ha : p a
    · exact ⟨[], a, l2, rfl, ha, by simp⟩
    · have hex2 : ∃ x ∈ l2, p x := by
        obtain ⟨x, hx, hpx⟩ := hex
        rcases List.mem_cons.mp hx with heq | hmem
        · exact absurd (heq ▸ hpx) ha
        · exact ⟨x, hmem, hpx⟩
      obtain ⟨l1, x, l3, heq, hpx, hgood⟩ := ih hex2
      refine ⟨a :: l1, x, l3, by rw [heq, List.cons_append], hpx, ?_⟩
      intro y hy
      rcases List.mem_cons.mp hy with heq2 | hmem2
      · exact heq2 ▸ ha
      · exact hgood y hmem2

lemma okArrayish_cases {V : Type} {r : Except String (BorrowedValue V)}
    (h : okArrayish r = true) (hne : ∀ e, r ≠ .error e) :
    ∃ vs, r = .ok (.array vs) := by
  match r with
  | .error e => exact absurd rfl (hne e)
  | .ok (.array vs) => exact ⟨vs, rfl⟩
  | .ok (.other v) => simp [okArrayish] at h

lemma deserialize_first_err {V E : Type} (g : ArrowDataType → V → E)
    (P : List Char → Except String (BorrowedValue V)) (dt : ArrowDataType)
    (B : Nat) (rows : List Row)
    (Hshape : ∀ c ∈ allChunks B rows, okArrayish (P (finalize c)) = true)
    (c0 : List Row) (hc0 : c0 ∈ allChunks B rows) (e0 : String)
    (he0 : P (finalize c0) = .error e0) :
    ∃ c ∈ allChunks B rows, ∃ e, P (finalize c) = .error e ∧
      deserialize_iter_budget g P dt B rows = .err (.ComputeError (errWrap e)) := by
  by_cases hflush : ∃ c ∈ (chunkGo B rows []).1, ∃ e, P (finalize c) = .error e
  · obtain ⟨good, bad, rest2, hsplit, hpbad, hgood⟩ :=
      exists_first_split (fun c => ∃ e, P (finalize c) = .error e) _ hflush
    obtain ⟨e, he⟩ := hpbad
    have hgoodok : ∀ c ∈ good, ∃ vs, P (finalize c) = .ok (.array vs) := by
      intro c hc
      have hmem : c ∈ (chunkGo B rows []).1 := by
        rw [hsplit]
        exact List.mem_append_left _ hc
      refine okArrayish_cases (Hshape c (mem_allChunks_left hmem)) ?_
      intro e2 he2
      exact hgood c hc ⟨e2, he2⟩
    have hrun := runRows_err g P dt B rows [] [] good bad rest2 e hsplit hgoodok he
    have hbadmem : bad ∈ (chunkGo B rows []).1 := by
      rw [hsplit]
      exact List.mem_append_right _ (List.mem_cons_self _ _)
    refine ⟨bad, mem_allChunks_left hbadmem, e, he, ?_⟩
    rw [deserialize_iter_budget, ← bufOf_nil, hrun]
  · have hc0res : c0 = (chunkGo B rows []).2 := by
      rw [allChunks] at hc0
      rcases List.mem_append.mp hc0 with hmem | hmem
      · exact absurd ⟨c0, hmem, e0, he0⟩ hflush
      · exact List.mem_singleton.mp hmem
    have Hg : ∀ c ∈ (chunkGo B rows []).1, ∃ vs, P (finalize c) = .ok (.array vs) := by
      intro c hc
      refine okArrayish_cases (Hshape c (mem_allChunks_left hc)) ?_
      intro e2 he2
      exact hflush ⟨c, hc, e2, he2⟩
    obtain ⟨VS, hlen, hrun⟩ := runRows_chunks_exists g P dt B rows [] [] Hg
    refine ⟨c0, hc0, e0, he0, ?_⟩
    rw [deserialize_iter_budget, ← bufOf_nil, hrun]
    simp only [List.nil_append, finalize_fold]
    rw [hc0res] at he0
    by_cases hemp : (VS.map (fun vs => Arr.mk dt (vs.map (g dt)))).isEmpty = true
    · rw [hemp]
      simp only [if_pos]
      rw [_deserializer, he0]
    · rw [Bool.not_eq_true] at hemp
      rw [hemp]
      simp only [Bool.false_eq_true, if_false]
      rw [_deserializer, he0]

/-! The flush predicate, group by group (for the flush-timing claim). -/

lemma lastLen_concat (c : List Row) (r : Row) : lastLen (c ++ [r]) = r.length := by
  simp [lastLen, List.getLast?_concat]

lemma triggers_concat_iff (B : Nat) (c : List Row) (r : Row) :
    triggers B (c ++ [r]) ↔ B < groupLen (c ++ [r]) + r.length := by
  rw [triggers, lastLen_concat]
  simp

lemma take_append_le {α : Type} (l1 l2 : List α) (n : Nat) (h : n ≤ l1.length) :
    (l1 ++ l2).take n = l1.take n := by
  rw [List.take_append_eq_append_take, Nat.sub_eq_zero_of_le h]
  simp

lemma chunkGo_triggers (B : Nat) :
    ∀ (rows cur : List Row),
      (∀ k, k < cur.length → ¬ triggers B (cur.take (k + 1))) →
      (∀ c ∈ (chunkGo B rows cur).1,
          triggers B c ∧ ∀ k, k + 1 < c.length → ¬ triggers B (c.take (k + 1)))
      ∧ (∀ k, k < ((chunkGo B rows cur).2).length →
          ¬ triggers B (((chunkGo B rows cur).2).take (k + 1))) := by
  intro rows
  induction rows with
  | nil =>
    intro cur Hcur
    refine ⟨?_, ?_⟩
    · intro c hcm
      simp [chunkGo] at hcm
    · intro k hk
      exact Hcur k (by simpa [chunkGo] using hk)
  | cons row rest ih =>
    intro cur Hcur
    by_cases hc : groupLen (cur ++ [row]) + row.length > B
    · have hcur1 : triggers B (cur ++ [row]) := (triggers_concat_iff B cur row).mpr hc
      have hpref : ∀ k, k + 1 < (cur ++ [row]).length →
          ¬ triggers B ((cur ++ [row]).take (k + 1)) := by
        intro k hk
        simp only [List.length_append, List.length_cons, List.length_nil] at hk
        have hk2 : k < cur.length := by omega
        rw [take_append_le cur [row] (k + 1) (by omega)]
        exact Hcur k hk2
      have ihr := ih [] (by intro k hk; simp at hk)
      constructor
      · intro c hcm
        rw [chunkGo] at hcm
        simp only [if_pos hc] at hcm
        rcases List.mem_cons.mp hcm with heq | hmem
        · subst heq
          exact ⟨hcur1, hpref⟩
        · exact ihr.1 c hmem
      · intro k hk
        rw [chunkGo] at hk ⊢
        simp only [if_pos hc] at hk ⊢
        exact ihr.2 k hk
    · have Hcur2 : ∀ k, k < (cur ++ [row]).length →
          ¬ triggers B ((cur ++ [row]).take (k + 1)) := by
        intro k hk
        simp only [List.length_append, List.length_cons, List.length_nil] at hk
        by_cases hklt : k < cur.length
        · rw [take_append_le cur [row] (k + 1) (by omega)]
          exact Hcur k hklt
        · have hkeq : k = cur.length := by omega
          subst hkeq
          rw [List.take_of_length_le (by simp)]
          rw [triggers_concat_iff]
          omega
      have ihr := ih (cur ++ [row]) Hcur2
      constructor
      · intro c hcm
        rw [chunkGo] at hcm
        simp only [if_neg hc] at hcm
        exact ihr.1 c hcm
      · intro k hk
        rw [chunkGo] at hk ⊢
        simp only [if_neg hc] at hk ⊢
        exact ihr.2 k hk

lemma chunkGo_oversized (B : Nat) :
    ∀ (rows cur : List Row) (row : Row), row ∈ rows → B < row.length →
      ∃ c ∈ (chunkGo B rows cur).1, c.getLast? = some row := by
  intro rows
  induction rows with
  | nil =>
    intro cur row h
    cases h
  | cons r rest ih =>
    intro cur row hmem hlen
    rcases List.mem_cons.mp hmem with heq | hmem2
    · subst heq
      have hc : groupLen (cur ++ [row]) + row.length > B := by
        have h2 : row.length + 2 ≤ groupLen (cur ++ [row]) := by
          rw [groupLen_concat]
          have := one_le_groupLen cur
          omega
        omega
      rw [chunkGo]
      simp only [if_pos hc]
      exact ⟨cur ++ [row], List.mem_cons_self _ _, by simp⟩
    · by_cases hc : groupLen (cur ++ [r]) + r.length > B
      · rw [chunkGo]
        simp only [if_pos hc]
        obtain ⟨c, hcm, hcl⟩ := ih [] row hmem2 hlen
        exact ⟨c, List.mem_cons_of_mem _ hcm, hcl⟩
      · rw [chunkGo]
        simp only [if_neg hc]
        exact ih (cur ++ [r]) row hmem2 hlen

/-! Shape of every buffer handed to the chunk decoder (for the framing
invariant claim). -/

lemma finalize_head (c : List Row) : (finalize c).head? = some '[' := by
  rcases List.eq_nil_or_concat c with heq | ⟨cs, r, heq⟩
  · subst heq; rfl
  · subst heq
    rw [List.concat_eq_append, finalize_concat]
    simp [bufOf]

lemma finalize_last (c : List Row) : (finalize c).getLast? = some ']' := by
  rcases List.eq_nil_or_concat c with heq | ⟨cs, r, heq⟩
  · subst heq; rfl
  · subst heq
    rw [List.concat_eq_append, finalize_concat]
    simp

lemma finalize_no_trailing_comma (c : List Row)
    (hc : ∀ r ∈ c, r ≠ [] ∧ r.getLast? ≠ some ',') :
    (finalize c).dropLast.getLast? ≠ some ',' := by
  rcases List.eq_nil_or_concat c with heq | ⟨cs, r, heq⟩
  · subst heq
    simp [finalize_nil]
  · subst heq
    rw [List.concat_eq_append] at hc ⊢
    have hr := hc r (by simp)
    rw [finalize_concat, List.dropLast_concat]
    rw [List.getLast?_append_of_ne_nil _ hr.1]
    exact hr.2

lemma mem_of_mem_allChunks {B : Nat} {rows : List Row} {c : List Row} {r : Row}
    (hc : c ∈ allChunks B rows) (hr : r ∈ c) : r ∈ rows := by
  have h := allChunks_flatten B rows
  rw [← h]
  exact List.mem_flatten.mpr ⟨c, hc, hr⟩

/-! Buffer-length invariant of the loop (for the memory-bound claim). -/

lemma rowStep_ok_buf {V E : Type} (g : ArrowDataType → V → E)
    (P : List Char → Except String (BorrowedValue V)) (dt : ArrowDataType)
    (B : Nat) (st : IterState E) (row : Row) (st2 : IterState E)
    (h : rowStep g P dt B st row = .ok st2) :
    st2.buf = ['['] ∨
      (st2.buf = st.buf ++ row ++ [','] ∧
        (st.buf ++ row ++ [',']).length + row.length ≤ B) := by
  by_cases hc : (st.buf ++ row ++ [',']).length + row.length > B
  · rw [rowStep_flush g P dt B st row hc] at h
    left
    cases hd : _deserializer g P (st.buf ++ row ++ [']']) dt with
    | ok a =>
      rw [hd] at h
      simp only [POutcome.ok.injEq] at h
      rw [← h]
    | err e =>
      rw [hd] at h
      simp at h
    | fatal =>
      rw [hd] at h
      simp at h
  · rw [rowStep_noflush g P dt B st row hc] at h
    right
    simp only [POutcome.ok.injEq] at h
    rw [← h]
    exact ⟨rfl, by omega⟩

lemma statesOf_inv {V E : Type} (g : ArrowDataType → V → E)
    (P : List Char → Except String (BorrowedValue V)) (dt : ArrowDataType)
    (B : Nat) (hB : 1 ≤ B) :
    ∀ (rows : List Row) (st : IterState E), st.buf.length ≤ B →
      ∀ s ∈ statesOf g P dt B rows st, s.buf.length ≤ B := by
  intro rows
  induction rows with
  | nil =>
    intro st _hst s hs
    simp [statesOf] at hs
  | cons row rest ih =>
    intro st hst s hs
    rw [statesOf] at hs
    rcases List.mem_cons.mp hs with heq | hs2
    · subst heq
      exact hst
    · cases hstep : rowStep g P dt B st row with
      | ok st2 =>
        rw [hstep] at hs2
        simp only [] at hs2
        have hbuf2 : st2.buf.length ≤ B := by
          rcases rowStep_ok_buf g P dt B st row st2 hstep with hb | ⟨hb, hle⟩
          · rw [hb]
            simpa using hB
          · rw [hb]
            omega
        exact ih st2 hbuf2 s hs2
      | err e =>
        rw [hstep] at hs2
        simp at hs2
      | fatal =>
        rw [hstep] at hs2
        simp at hs2

/-! Claims. -/

/-- C1: for every finite sequence of rows in which every chunk parses as
valid JSON (formalized: the parser decomposes each finalized chunk buffer
into the array of its rows' values), `deserialize_iter` returns `Ok` with
an array whose length equals the number of input rows and whose logical
type equals the supplied target data type, for any flush byte-budget. -/
theorem claim_C1 {V E : Type} (g : ArrowDataType → V → E)
    (P : List Char → Except String (BorrowedValue V)) (dt : ArrowDataType)
    (B : Nat) (rows : List Row) (f : Row → V)
    (H : ∀ c ∈ allChunks B rows, P (finalize c) = .ok (.array (c.map f))) :
    ∃ a, deserialize_iter_budget g P dt B rows = .ok a ∧
      a.values.length = rows.length ∧ a.dtype = dt := by
  refine ⟨_, deserialize_norm g P dt B f rows H, ?_, rfl⟩
  simp

/-- C3: chunking is observationally transparent: for every sequence of
valid JSON rows and every target type, decoding with any two budgets
(in particular one producing a single chunk and one forcing many flushes)
yields value-for-value identical output arrays, in the original row
order. -/
theorem claim_C3 {V E : Type} (g : ArrowDataType → V → E)
    (P : List Char → Except String (BorrowedValue V)) (dt : ArrowDataType)
    (B1 B2 : Nat) (rows : List Row) (f : Row → V)
    (H1 : ∀ c ∈ allChunks B1 rows, P (finalize c) = .ok (.array (c.map f)))
    (H2 : ∀ c ∈ allChunks B2 rows, P (finalize c) = .ok (.array (c.map f))) :
    deserialize_iter_budget g P dt B1 rows = deserialize_iter_budget g P dt B2 rows
    ∧ deserialize_iter_budget g P dt B1 rows = .ok ⟨dt, (rows.map f).map (g dt)⟩ := by
  have h1 := deserialize_norm g P dt B1 f rows H1
  have h2 := deserialize_norm g P dt B2 f rows H2
  exact ⟨by rw [h1, h2], h1⟩

/-- C6: for the empty input sequence, `deserialize_iter` returns `Ok`
with an output array of length 0 and the requested target type (no error,
and no flush occurs: the flushed chunk list is empty). -/
theorem claim_C6 {V E : Type} (g : ArrowDataType → V → E)
    (P : List Char → Except String (BorrowedValue V)) (dt : ArrowDataType)
    (B : Nat) (hP : P ['[', ']'] = .ok (.array ([] : List V))) :
    deserialize_iter_budget g P dt B ([] : List Row) = .ok ⟨dt, ([] : List E)⟩
    ∧ (chunkGo B ([] : List Row) []).1 = [] := by
  refine ⟨?_, rfl⟩
  rw [deserialize_iter_budget, runRows]
  simp [_deserializer, hP, _deserialize]

/-- C7: if no flush occurred during batching, the decode result of the
residual buffer is returned directly as the output (and the residual
group is the whole input); otherwise the residual chunk is appended and
all chunks are concatenated in arrival order. -/
theorem claim_C7 {V E : Type} (g : ArrowDataType → V → E)
    (P : List Char → Except String (BorrowedValue V)) (dt : ArrowDataType)
    (B : Nat) (rows : List Row) (f : Row → V) :
    ((chunkGo B rows []).1 = [] →
      deserialize_iter_budget g P dt B rows =
        _deserializer g P (finalize ((chunkGo B rows []).2)) dt
      ∧ (chunkGo B rows []).2 = rows)
    ∧ ((chunkGo B rows []).1 ≠ [] →
      (∀ c ∈ allChunks B rows, P (finalize c) = .ok (.array (c.map f))) →
      deserialize_iter_budget g P dt B rows =
        .ok ⟨dt, ((allChunks B rows).map (fun c => (c.map f).map (g dt))).flatten⟩) := by
  constructor
  · intro hne
    constructor
    · have hrun := runRows_noflush g P dt B rows [] [] hne
      rw [deserialize_iter_budget, ← bufOf_nil, hrun]
      simp only [List.isEmpty_nil, if_pos, finalize_fold]
    · exact chunkGo_res_of_noflush hne
  · intro hne H
    exact deserialize_concat_form g P dt B f rows H hne

/-- C2: the call returns an error if and only if some flushed or residual
chunk buffer fails to parse (assuming the parser only ever returns array
values on the handed, array-framed buffers); the error is a typed
`ComputeError` whose message is exactly the source's wrapping of the
underlying parser diagnostic.  No array accompanies a failure: the `err`
outcome carries only the error value. -/
theorem claim_C2 {V E : Type} (g : ArrowDataType → V → E)
    (P : List Char → Except String (BorrowedValue V)) (dt : ArrowDataType)
    (B : Nat) (rows : List Row)
    (Hshape : ∀ b ∈ handedBufs B rows, okArrayish (P b) = true) :
    ((∃ pe, deserialize_iter_budget g P dt B rows = .err pe) ↔
      ∃ b ∈ handedBufs B rows, ∃ e, P b = .error e)
    ∧ ∀ pe, deserialize_iter_budget g P dt B rows = .err pe →
        ∃ b ∈ handedBufs B rows, ∃ e, P b = .error e ∧
          pe = .ComputeError (errWrap e) := by
  have Hshape2 : ∀ c ∈ allChunks B rows, okArrayish (P (finalize c)) = true :=
    fun c hc => Hshape _ (List.mem_map_of_mem _ hc)
  constructor
  · constructor
    · rintro ⟨pe, hpe⟩
      by_contra hnone
      push_neg at hnone
      have H : ∀ c ∈ allChunks B rows, ∃ vs, P (finalize c) = .ok (.array vs) := by
        intro c hc
        refine okArrayish_cases (Hshape2 c hc) ?_
        intro e he
        exact hnone (finalize c) (List.mem_map_of_mem _ hc) e he
      obtain ⟨a, ha⟩ := deserialize_ok_exists g P dt B rows H
      rw [ha] at hpe
      cases hpe
    · rintro ⟨b, hb, e, he⟩
      obtain ⟨c, hc, heq⟩ := List.mem_map.mp hb
      subst heq
      obtain ⟨c2, _, e2, _, heq2⟩ :=
        deserialize_first_err g P dt B rows Hshape2 c hc e he
      exact ⟨_, heq2⟩
  · intro pe hpe
    by_cases hex : ∃ c ∈ allChunks B rows, ∃ e, P (finalize c) = .error e
    · obtain ⟨c, hc, e, he⟩ := hex
      obtain ⟨c2, hc2, e2, he2, heq2⟩ :=
        deserialize_first_err g P dt B rows Hshape2 c hc e he
      rw [hpe] at heq2
      refine ⟨finalize c2, List.mem_map_of_mem _ hc2, e2, he2, ?_⟩
      cases heq2
      rfl
    · push_neg at hex
      have H : ∀ c ∈ allChunks B rows, ∃ vs, P (finalize c) = .ok (.array vs) := by
        intro c hc
        refine okArrayish_cases (Hshape2 c hc) ?_
        intro e he
        exact hex c hc e he
      obtain ⟨a, ha⟩ := deserialize_ok_exists g P dt B rows H
      rw [ha] at hpe
      cases hpe

/-- C4: a flush happens exactly when, after the row and its separator
comma are appended, the buffer length plus the row length exceeds the
budget: in the loop, a non-exceeding step only appends (first conjunct),
an exceeding step decodes the buffer closed directly after that very row
(second conjunct); at chunk level, every flushed group satisfies the flush
predicate at its last row and at no earlier row, the residual group never
satisfies it (third and fourth conjuncts), and a row longer than the
budget always ends up as the last row of a flushed (hence decoded) group
(fifth conjunct): the predicate cannot skip or deadlock on an oversized
row. -/
theorem claim_C4 {V E : Type} (g : ArrowDataType → V → E)
    (P : List Char → Except String (BorrowedValue V)) (dt : ArrowDataType)
    (B : Nat) (rows : List Row) :
    (∀ (st : IterState E) (row : Row),
        (st.buf ++ row ++ [',']).length + row.length ≤ B →
        rowStep g P dt B st row = .ok ⟨st.arr, st.buf ++ row ++ [',']⟩)
    ∧ (∀ (st : IterState E) (row : Row),
        (st.buf ++ row ++ [',']).length + row.length > B →
        rowStep g P dt B st row =
          match _deserializer g P (st.buf ++ row ++ [']']) dt with
          | .ok a => .ok ⟨st.arr ++ [a], ['[']⟩
          | .err e => .err e
          | .fatal => .fatal)
    ∧ (∀ c ∈ (chunkGo B rows []).1,
        triggers B c ∧ ∀ k, k + 1 < c.length → ¬ triggers B (c.take (k + 1)))
    ∧ (∀ k, k < ((chunkGo B rows []).2).length →
        ¬ triggers B (((chunkGo B rows []).2).take (k + 1)))
    ∧ (∀ row ∈ rows, B < row.length →
        ∃ c ∈ (chunkGo B rows []).1, c.getLast? = some row) := by
  have hspec := chunkGo_triggers B rows [] (by intro k hk; simp at hk)
  refine ⟨?_, ?_, hspec.1, hspec.2, ?_⟩
  · intro st row h
    exact rowStep_noflush g P dt B st row (by omega)
  · intro st row h
    exact rowStep_flush g P dt B st row h
  · intro row hmem hlen
    exact chunkGo_oversized B rows [] row hmem hlen

/-- C5: when every row is a JSON document (in particular nonempty and not
ending in a comma), every buffer handed to the chunk decoder is a framed
array literal: it starts with an opening bracket, ends with a closing
bracket, and has no comma directly before the closing bracket; and when
no rows were batched since the last flush, the finalized residual buffer
is the two-character literal of an empty array. -/
theorem claim_C5 (B : Nat) (rows : List Row)
    (hrows : ∀ r ∈ rows, r ≠ [] ∧ r.getLast? ≠ some ',') :
    (∀ b ∈ handedBufs B rows,
        b.head? = some '[' ∧ b.getLast? = some ']' ∧
          b.dropLast.getLast? ≠ some ',')
    ∧ ((chunkGo B rows []).2 = [] →
        finalize ((chunkGo B rows []).2) = ['[', ']']) := by
  constructor
  · intro b hb
    obtain ⟨c, hc, heq⟩ := List.mem_map.mp hb
    subst heq
    refine ⟨finalize_head c, finalize_last c, finalize_no_trailing_comma c ?_⟩
    intro r hr
    exact hrows r (mem_of_mem_allChunks hc hr)
  · intro h
    rw [h]
    exact finalize_nil

/-- C8: the branch in which the parser returns a non-array top-level
value is a fatal condition (the source's `unreachable!()` panic), never
coerced into a recoverable error value (first conjunct); under the
precondition that the parser only returns array values when it succeeds,
that branch is unreachable, both for a single chunk decode and for the
whole call (second and third conjuncts). -/
theorem claim_C8 {V E : Type} (g : ArrowDataType → V → E)
    (P : List Char → Except String (BorrowedValue V)) (dt : ArrowDataType)
    (B : Nat) :
    (∀ (s : List Char) (v : BorrowedValue V), P s = .ok v →
        (∀ vs, v ≠ .array vs) → _deserializer g P s dt = .fatal)
    ∧ (∀ s : List Char, okArrayish (P s) = true → _deserializer g P s dt ≠ .fatal)
    ∧ (∀ rows : List Row, (∀ b ∈ handedBufs B rows, okArrayish (P b) = true) →
        deserialize_iter_budget g P dt B rows ≠ .fatal) := by
  refine ⟨?_, ?_, ?_⟩
  · intro s v hP hv
    rw [_deserializer, hP]
    cases v with
    | array vs => exact absurd rfl (hv vs)
    | other w => rfl
  · intro s h
    rw [_deserializer]
    cases hp : P s with
    | error e => simp
    | ok v =>
      cases v with
      | array vs => simp [_deserialize]
      | other w =>
        rw [hp] at h
        simp [okArrayish] at h
  · intro rows Hsh
    have Hshape2 : ∀ c ∈ allChunks B rows, okArrayish (P (finalize c)) = true :=
      fun c hc => Hsh _ (List.mem_map_of_mem _ hc)
    by_cases hex : ∃ c ∈ allChunks B rows, ∃ e, P (finalize c) = .error e
    · obtain ⟨c, hc, e, he⟩ := hex
      obtain ⟨c2, _, e2, _, heq2⟩ :=
        deserialize_first_err g P dt B rows Hshape2 c hc e he
      rw [heq2]
      simp
    · push_neg at hex
      have H : ∀ c ∈ allChunks B rows, ∃ vs, P (finalize c) = .ok (.array vs) := by
        intro c hc
        refine okArrayish_cases (Hshape2 c hc) ?_
        intro e he
        exact hex c hc e he
      obtain ⟨a, ha⟩ := deserialize_ok_exists g P dt B rows H
      rw [ha]
      simp

/-- C9: the flush budget of the source, the wrapping 32-bit evaluation of
the shift expression, is 2 ^ 32 - 2; at the start of every row iteration
the batch buffer's length is at most that budget, and mid-iteration
(after the row and separator comma are appended) the buffer exceeds the
budget by at most the current row's length plus one separator byte, so
memory is bounded by the budget plus one row rather than by row count. -/
theorem claim_C9 :
    FLUSH_LIMIT = 2 ^ 32 - 2 ∧
    ∀ {V E : Type} (g : ArrowDataType → V → E)
      (P : List Char → Except String (BorrowedValue V)) (dt : ArrowDataType)
      (rows : List Row),
      ∀ s ∈ statesOf (E := E) g P dt FLUSH_LIMIT rows ⟨[], ['[']⟩,
        s.buf.length ≤ FLUSH_LIMIT ∧
        ∀ row : Row,
          (s.buf ++ row ++ [',']).length ≤ FLUSH_LIMIT + (row.length + 1) := by
  have hval : FLUSH_LIMIT = 2 ^ 32 - 2 := by norm_num [FLUSH_LIMIT, u32MAX]
  refine ⟨hval, ?_⟩
  intro V E g P dt rows s hs
  have h1 : s.buf.length ≤ FLUSH_LIMIT := by
    refine statesOf_inv g P dt FLUSH_LIMIT ?_ rows ⟨[], ['[']⟩ ?_ s hs
    · rw [hval]; norm_num
    · show (['['] : List Char).length ≤ FLUSH_LIMIT
      rw [hval]; norm_num
  refine ⟨h1, ?_⟩
  intro row
  simp only [List.length_append, List.length_cons, List.length_nil]
  omega

/-- C10: each `ArrayNameSpace` method maps the wrapped expression through
exactly its corresponding `ArrayFunction` variant, turning it into a
function node whose sole input is the wrapped expression itself; in
particular `unique` and `unique_stable` produce the same `Unique` variant
differing only in the stability flag, false for `unique` and true for
`unique_stable`. -/
theorem claim_C10 (e : Expr) (ddof : Nat) :
    (ArrayNameSpace.mk e).max = Expr.function [e] (.ArrayExpr .Max)
    ∧ (ArrayNameSpace.mk e).min = Expr.function [e] (.ArrayExpr .Min)
    ∧ (ArrayNameSpace.mk e).sum = Expr.function [e] (.ArrayExpr .Sum)
    ∧ (ArrayNameSpace.mk e).std ddof = Expr.function [e] (.ArrayExpr (.Std ddof))
    ∧ (ArrayNameSpace.mk e).var ddof = Expr.function [e] (.ArrayExpr (.Var ddof))
    ∧ (ArrayNameSpace.mk e).median = Expr.function [e] (.ArrayExpr .Median)
    ∧ (ArrayNameSpace.mk e).unique = Expr.function [e] (.ArrayExpr (.Unique false))
    ∧ (ArrayNameSpace.mk e).unique_stable =
        Expr.function [e] (.ArrayExpr (.Unique true))
    ∧ (ArrayNameSpace.mk e).to_list = Expr.function [e] (.ArrayExpr .ToList)
    ∧ (ArrayNameSpace.mk e).all = Expr.function [e] (.ArrayExpr .All)
    ∧ (ArrayNameSpace.mk e).any = Expr.function [e] (.ArrayExpr .Any)
    ∧ (ArrayNameSpace.mk e).unique = (ArrayNameSpace.mk e).expr.map_private
        (.ArrayExpr (.Unique false))
    ∧ (ArrayNameSpace.mk e).unique_stable = (ArrayNameSpace.mk e).expr.map_private
        (.ArrayExpr (.Unique true)) :=
  ⟨rfl, rfl, rfl, rfl, rfl, rfl, rfl, rfl, rfl, rfl, rfl, rfl, rfl⟩

/-! Witnesses: each claim theorem with a hypothesis, applied at a
concrete input. -/

/-- Witness for C1 at two single-digit rows and budget 6 (single chunk). -/
theorem claim_C1_witness :
    (∀ c ∈ allChunks 6 [['1'], ['2']],
        Pw (finalize c) = .ok (.array (c.map fw)))
    ∧ ∃ a, deserialize_iter_budget gw Pw .int64 6 [['1'], ['2']] = .ok a ∧
        a.values.length = ([['1'], ['2']] : List Row).length ∧ a.dtype = .int64 :=
  ⟨by decide, claim_C1 gw Pw .int64 6 [['1'], ['2']] fw (by decide)⟩

/-- Witness for C2 at one malformed row and budget 6. -/
theorem claim_C2_witness :
    (∀ b ∈ handedBufs 6 [['x']], okArrayish (Pw b) = true)
    ∧ (((∃ pe, deserialize_iter_budget gw Pw .int64 6 [['x']] = .err pe) ↔
        ∃ b ∈ handedBufs 6 [['x']], ∃ e, Pw b = .error e)
      ∧ ∀ pe, deserialize_iter_budget gw Pw .int64 6 [['x']] = .err pe →
          ∃ b ∈ handedBufs 6 [['x']], ∃ e, Pw b = .error e ∧
            pe = .ComputeError (errWrap e)) :=
  ⟨by decide, claim_C2 gw Pw .int64 6 [['x']] (by decide)⟩

/-- Witness for C3: budget 6 keeps both rows in the residual chunk while
budget 4 forces a flush; the outputs agree. -/
theorem claim_C3_witness :
    (∀ c ∈ allChunks 6 [['1'], ['2']],
        Pw (finalize c) = .ok (.array (c.map fw)))
    ∧ (∀ c ∈ allChunks 4 [['1'], ['2']],
        Pw (finalize c) = .ok (.array (c.map fw)))
    ∧ (deserialize_iter_budget gw Pw .int64 6 [['1'], ['2']] =
        deserialize_iter_budget gw Pw .int64 4 [['1'], ['2']]
      ∧ deserialize_iter_budget gw Pw .int64 6 [['1'], ['2']] =
        .ok ⟨.int64, (([['1'], ['2']] : List Row).map fw).map (gw .int64)⟩) :=
  ⟨by decide, by decide,
    claim_C3 gw Pw .int64 6 4 [['1'], ['2']] fw (by decide) (by decide)⟩

/-- Witness for C4: a small step below budget 20 only appends, and a
four-byte row above budget 3 becomes the last row of a flushed group. -/
theorem claim_C4_witness :
    rowStep gw Pw .int64 20 ⟨[], ['[']⟩ ['1'] = .ok ⟨[], ['[', '1', ',']⟩
    ∧ ∃ c ∈ (chunkGo 3 [['a', 'b', 'c', 'd']] []).1,
        c.getLast? = some ['a', 'b', 'c', 'd'] :=
  ⟨(claim_C4 gw Pw .int64 20 []).1 ⟨[], ['[']⟩ ['1'] (by decide),
    (claim_C4 gw Pw .int64 3 [['a', 'b', 'c', 'd']]).2.2.2.2
      ['a', 'b', 'c', 'd'] (by decide) (by decide)⟩

/-- Witness for C5 at two single-digit rows and budget 6. -/
theorem claim_C5_witness :
    (∀ r ∈ ([['1'], ['2']] : List Row), r ≠ [] ∧ r.getLast? ≠ some ',')
    ∧ ((∀ b ∈ handedBufs 6 [['1'], ['2']],
          b.head? = some '[' ∧ b.getLast? = some ']' ∧
            b.dropLast.getLast? ≠ some ',')
      ∧ ((chunkGo 6 [['1'], ['2']] []).2 = [] →
          finalize ((chunkGo 6 [['1'], ['2']] []).2) = ['[', ']'])) :=
  ⟨by decide, claim_C5 6 [['1'], ['2']] (by decide)⟩

/-- Witness for C6 at the empty row sequence and budget 6. -/
theorem claim_C6_witness :
    Pw ['[', ']'] = .ok (.array ([] : List Nat))
    ∧ (deserialize_iter_budget gw Pw .int64 6 ([] : List Row) =
        .ok ⟨.int64, ([] : List Nat)⟩
      ∧ (chunkGo 6 ([] : List Row) []).1 = []) :=
  ⟨by decide, claim_C6 gw Pw .int64 6 (by decide)⟩

/-- Witness for C7: no flush at budget 6 (residual decode returned
directly), one flush at budget 4 (concatenation of both chunks). -/
theorem claim_C7_witness :
    (deserialize_iter_budget gw Pw .int64 6 [['1'], ['2']] =
        _deserializer gw Pw (finalize ((chunkGo 6 [['1'], ['2']] []).2)) .int64
      ∧ (chunkGo 6 [['1'], ['2']] []).2 = [['1'], ['2']])
    ∧ deserialize_iter_budget gw Pw .int64 4 [['1'], ['2']] =
        .ok ⟨.int64, ((allChunks 4 [['1'], ['2']]).map
          (fun c => (c.map fw).map (gw .int64))).flatten⟩ :=
  ⟨(claim_C7 gw Pw .int64 6 [['1'], ['2']] fw).1 (by decide),
    (claim_C7 gw Pw .int64 4 [['1'], ['2']] fw).2 (by decide) (by decide)⟩

/-- Witness for C8: a parser returning a non-array value makes the chunk
decode fatal, and with the well-shaped concrete parser the whole call is
never fatal, even on a malformed row. -/
theorem claim_C8_witness :
    _deserializer gw Pother ['['] .int64 = .fatal
    ∧ deserialize_iter_budget gw Pw .int64 6 [['x']] ≠ .fatal :=
  ⟨(claim_C8 gw Pother .int64 6).1 ['['] (.other 0) rfl (fun vs h => by cases h),
    (claim_C8 gw Pw .int64 6).2.2 [['x']] (by decide)⟩

/-- Witness for C9: the initial state of a one-row run satisfies both
bounds. -/
theorem claim_C9_witness :
    (IterState.mk ([] : List (Arr Nat)) ['[']).buf.length ≤ FLUSH_LIMIT
    ∧ ((IterState.mk ([] : List (Arr Nat)) ['[']).buf ++ ['1'] ++ [',']).length ≤
        FLUSH_LIMIT + ((['1'] : Row).length + 1) :=
  ⟨(claim_C9.2 gw Pw .int64 [['1']] ⟨[], ['[']⟩ (by decide)).1,
    (claim_C9.2 gw Pw .int64 [['1']] ⟨[], ['[']⟩ (by decide)).2 ['1']⟩
